import Mathlib

/-!
Verification of the quicksort core of `src/main.cpp` (repository
`raid-7/hse-parallelSort`): the Hoare-style `partition`, the sequential
`quicksort`, and `parallelQuicksort` (TBB fork-join variant).

The C++ code works on random-access iterators over a contiguous buffer of
totally ordered numeric values.  We embed it shallowly: the buffer is an
`Array Int`, an iterator is a `Nat` index into that buffer, and a range is a
half-open index pair `[b, e)`.  The partition scan can, in C++, walk a cursor
past the ends of the buffer (undefined behaviour); the embedding therefore
reads through `a[i]?` and returns `none` whenever the C++ code would
dereference out of the underlying buffer.  The unbounded `while (true)` loop
and the recursion are given explicit fuel; every exported entry point supplies
fuel that is proved sufficient on all defined executions, so `none` models
exactly the undefined / divergent executions.

`parallelQuicksort` uses `tbb::parallel_invoke` to run the two recursive
calls as a fork-join pair on disjoint subranges.  The embedding sequentialises
the pair under an arbitrary schedule oracle `sched`: at every fan-out node the
oracle picks which of the two tasks runs first.  Results are proved
independent of the oracle, which is the shallow counterpart of the
schedule-independence claimed by the design document.
-/

namespace PSort

/-- The left cursor scan `do ++l; while (*l < ref);` of `partition`
(src/main.cpp line 80).  `p` is the next position the scan will dereference
(the C++ cursor has just been incremented to `p`).  Returns the position the
cursor stops at, or `none` if the scan would dereference outside the buffer
(C++ undefined behaviour) or run out of fuel. -/
def scanL (a : Array Int) (ref : Int) : Nat → Nat → Option Nat
  | _, 0 => none
  | p, fuel+1 =>
    match a[p]? with
    | none => none
    | some v => if v < ref then scanL a ref (p+1) fuel else some p

/-- The right cursor scan `do --r; while (*r > ref);` of `partition`
(src/main.cpp line 81).  `r` is the current cursor position before the
decrement; the scan dereferences `r-1` first.  Returns the stop position, or
`none` when the cursor would move below position `0` (dereferencing
`begin - 1`, undefined behaviour) or out of fuel. -/
def scanR (a : Array Int) (ref : Int) : Nat → Nat → Option Nat
  | _, 0 => none
  | 0, _+1 => none
  | r+1, fuel+1 =>
    match a[r]? with
    | none => none
    | some v => if ref < v then scanR a ref r fuel else some r

/-- In-place exchange `std::iter_swap(l, r)` (src/main.cpp line 84), guarded
so that it is total; the guard is never hit on positions produced by
successful scans, which are in bounds by construction. -/
def swapN (a : Array Int) (i j : Nat) : Array Int :=
  if h : i < a.size ∧ j < a.size then a.swap ⟨i, h.1⟩ ⟨j, h.2⟩ else a

/-- The `while (true)` loop of `partition` (src/main.cpp lines 79-85).
State: current array `a`, `lp` = position the left scan will test next
(the C++ `l` cursor sits at `lp - 1`), `r` = current right cursor.
On `l >= r` the loop returns the right cursor as the split point. -/
def partitionLoop (ref : Int) : Nat → Array Int → Nat → Nat → Option (Array Int × Nat)
  | 0, _, _, _ => none
  | fuel+1, a, lp, r =>
    match scanL a ref lp (a.size + 1), scanR a ref r (a.size + 1) with
    | some l2, some r2 =>
      if r2 ≤ l2 then some (a, r2)
      else partitionLoop ref fuel (swapN a l2 r2) (l2+1) r2
    | _, _ => none

/-- `partition(begin, end, ref)` of src/main.cpp lines 74-86: Hoare-style
two-cursor partition of the range `[b, e)` of `a` around the pivot value
`ref`.  Empty range (`begin >= end`) returns `begin` unchanged. -/
def partition (a : Array Int) (b e : Nat) (ref : Int) : Option (Array Int × Nat) :=
  if e ≤ b then some (a, b) else partitionLoop ref (a.size + 1) a b e

/-- Fuelled body of `quicksort(begin, end)` (src/main.cpp lines 88-96):
if `begin < end`, pick the pivot value at the midpoint `begin + (end-begin)/2`,
partition, then recurse on `[begin, m)` and `[m+1, end)`.  Note the source
recurses on `quicksort(begin, m)` — position `m` is excluded from both
recursive calls. -/
def quicksortF : Nat → Array Int → Nat → Nat → Option (Array Int)
  | 0, a, b, e => if b < e then none else some a
  | fuel+1, a, b, e =>
    if b < e then
      match a[b + (e - b) / 2]? with
      | none => none
      | some ref =>
        match partition a b e ref with
        | none => none
        | some (a1, m) =>
          match quicksortF fuel a1 b m with
          | none => none
          | some a2 => quicksortF fuel a2 (m+1) e
    else some a

/-- `quicksort(begin, end)` with fuel `e - b`, which is proved sufficient for
every call the program makes. -/
def quicksort (a : Array Int) (b e : Nat) : Option (Array Int) :=
  quicksortF (e - b) a b e

/-- Fuelled body of `parallelQuicksort<It, granularity>(begin, end)`
(src/main.cpp lines 98-117): ranges of size at most `g` are delegated to the
sequential `quicksort`; otherwise the range is partitioned exactly as in
`quicksort` and the two recursive calls are submitted to
`tbb::parallel_invoke`.  The fork-join pair acts on the disjoint subranges
`[begin, m)` and `[m+1, end)`; the embedding runs the two tasks in the order
chosen by the schedule oracle `sched` at each node. -/
def parallelQuicksortF (g : Nat) (sched : Nat → Nat → Bool) :
    Nat → Array Int → Nat → Nat → Option (Array Int)
  | 0, a, b, e => if b < e then none else some a
  | fuel+1, a, b, e =>
    if b < e then
      if e - b ≤ g then quicksort a b e
      else
        match a[b + (e - b) / 2]? with
        | none => none
        | some ref =>
          match partition a b e ref with
          | none => none
          | some (a1, m) =>
            if sched b e then
              match parallelQuicksortF g sched fuel a1 b m with
              | none => none
              | some a2 => parallelQuicksortF g sched fuel a2 (m+1) e
            else
              match parallelQuicksortF g sched fuel a1 (m+1) e with
              | none => none
              | some a2 => parallelQuicksortF g sched fuel a2 b m
    else some a

/-- `parallelQuicksort` entry point with fuel `e - b`. -/
def parallelQuicksort (g : Nat) (sched : Nat → Nat → Bool) (a : Array Int) (b e : Nat) :
    Option (Array Int) :=
  parallelQuicksortF g sched (e - b) a b e

/-- The template default `granularity = 256` of `parallelQuicksort`
(src/main.cpp line 98). -/
def defaultGranularity : Nat := 256

/-- Modelled from the spec: the design document's reference sequential sort
procedure (spec sections 4.2 and 8), which is absent from src/ as written —
the source code deviates from it.  Base case: a range of size 0 or 1 returns
immediately.  Recursive case: pivot = value at the range's midpoint, one call
to the Partitioner giving split `m`, then recursion on `[begin, m]`
(inclusive of `m`, i.e. the half-open `[begin, m+1)`) and `(m, end]`
(i.e. `[m+1, end)`), with no merge step. -/
def quicksortSpecF : Nat → Array Int → Nat → Nat → Option (Array Int)
  | 0, a, b, e => if b + 1 < e then none else some a
  | fuel+1, a, b, e =>
    if b + 1 < e then
      match a[b + (e - b) / 2]? with
      | none => none
      | some ref =>
        match partition a b e ref with
        | none => none
        | some (a1, m) =>
          match quicksortSpecF fuel a1 b (m+1) with
          | none => none
          | some a2 => quicksortSpecF fuel a2 (m+1) e
    else some a

/-- Modelled from the spec: entry point of the reference procedure. -/
def quicksortSpec (a : Array Int) (b e : Nat) : Option (Array Int) :=
  quicksortSpecF (e - b) a b e

/-- The range `[b, e)` of `a` is non-descending: every adjacent pair is
ordered.  (The redundant first bound `i < e` makes the statement decidable;
the `getD 0` defaults are never relevant on in-bounds ranges.) -/
def SortedOn (a : Array Int) (b e : Nat) : Prop :=
  ∀ i, i < e → b ≤ i → i + 1 < e → (a[i]?).getD 0 ≤ (a[i+1]?).getD 0

instance (a : Array Int) (b e : Nat) : Decidable (SortedOn a b e) :=
  Nat.decidableBallLT e fun i _ =>
    b ≤ i → i + 1 < e → (a[i]?).getD 0 ≤ (a[i+1]?).getD 0

/-! ### Array and list helper lemmas -/

theorem ext_of_getElem? (x y : Array Int) (h : ∀ k : Nat, x[k]? = y[k]?) : x = y := by
  have hsz : x.size = y.size := by
    rcases Nat.lt_trichotomy x.size y.size with hlt | heq | hgt
    · have h1 := h x.size
      rw [Array.getElem?_len_le x (le_refl _), Array.getElem?_eq_getElem hlt] at h1
      exact absurd h1 (by simp)
    · exact heq
    · have h1 := h y.size
      rw [Array.getElem?_len_le y (le_refl _), Array.getElem?_eq_getElem hgt] at h1
      exact absurd h1 (by simp)
  refine Array.ext x y hsz fun i hi₁ hi₂ => ?_
  have h1 := h i
  rw [Array.getElem?_eq_getElem hi₁, Array.getElem?_eq_getElem hi₂] at h1
  exact Option.some.inj h1

theorem cons_set_perm (l : List Int) (j : Nat) (x : Int) (hj : j < l.length) :
    (l[j] :: l.set j x).Perm (x :: l) := by
  induction l generalizing j with
  | nil => simp at hj
  | cons a t ih =>
    cases j with
    | zero => simpa using List.Perm.swap x a t
    | succ j =>
      have hj' : j < t.length := by simpa using hj
      have h1 : (t[j] :: t.set j x).Perm (x :: t) := ih j hj'
      simp only [List.getElem_cons_succ, List.set_cons_succ]
      exact (List.Perm.swap a t[j] _).trans ((List.Perm.cons a h1).trans (List.Perm.swap x a t))

theorem set_set_perm (l : List Int) (i j : Nat) (hi : i < l.length) (hj : j < l.length) :
    ((l.set i l[j]).set j l[i]).Perm l := by
  induction l generalizing i j with
  | nil => simp at hi
  | cons a t ih =>
    cases i with
    | zero =>
      cases j with
      | zero => simp
      | succ j =>
        have hj' : j < t.length := by simpa using hj
        simpa using cons_set_perm t j a hj'
    | succ i =>
      have hi' : i < t.length := by simpa using hi
      cases j with
      | zero => simpa using cons_set_perm t i a hi'
      | succ j =>
        have hj' : j < t.length := by simpa using hj
        simpa using List.Perm.cons a (ih i j hi' hj')

theorem size_swapN (a : Array Int) (i j : Nat) : (swapN a i j).size = a.size := by
  unfold swapN
  split
  · exact Array.size_swap ..
  · rfl

theorem getElem?_swapN (a : Array Int) (i j : Nat) (hi : i < a.size) (hj : j < a.size)
    (k : Nat) :
    (swapN a i j)[k]? = if j = k then a[i]? else if i = k then a[j]? else a[k]? := by
  unfold swapN
  rw [dif_pos ⟨hi, hj⟩, Array.getElem?_swap]
  simp only [Array.getElem?_eq_getElem hi, Array.getElem?_eq_getElem hj]

theorem toList_swapN_perm (a : Array Int) (i j : Nat) (hi : i < a.size) (hj : j < a.size) :
    (swapN a i j).toList.Perm a.toList := by
  unfold swapN
  rw [dif_pos ⟨hi, hj⟩]
  have hi' : i < a.toList.length := by simpa using hi
  have hj' : j < a.toList.length := by simpa using hj
  have heq : (a.swap ⟨i, hi⟩ ⟨j, hj⟩).toList = (a.toList.set i a.toList[j]).set j a.toList[i] := by
    simp only [Array.swap_def, Array.toList_set]
    rfl
  rw [heq]
  exact set_set_perm a.toList i j hi' hj'

theorem swapN_self (a : Array Int) (i j : Nat) (h : a[i]? = a[j]?) : swapN a i j = a := by
  by_cases hb : i < a.size ∧ j < a.size
  · refine ext_of_getElem? _ _ fun k => ?_
    rw [getElem?_swapN a i j hb.1 hb.2 k]
    split
    · next hjk => rw [← hjk, h]
    · split
      · next hik => rw [← hik, ← h]
      · rfl
  · unfold swapN
    rw [dif_neg hb]

/-! ### Scan lemmas

`scanL_spec` / `scanR_spec`: when a stopper element is known to sit at an
in-bounds position on the scan's path, the scan succeeds, stops at or before
the stopper, and every position strictly passed holds a strict non-stopper.
The `congr` lemmas transport a successful scan to any array that agrees with
the original on the positions the scan actually dereferences. -/

theorem scanL_le (a : Array Int) (ref : Int) :
    ∀ (fuel p l2 : Nat), scanL a ref p fuel = some l2 → p ≤ l2 := by
  intro fuel
  induction fuel with
  | zero => intro p l2 h; simp [scanL] at h
  | succ fuel ih =>
    intro p l2 h
    unfold scanL at h
    split at h
    · cases h
    · next v hv =>
      split at h
      · exact Nat.le_of_succ_le (ih (p+1) l2 h)
      · exact Nat.le_of_eq (Option.some.inj h)

theorem scanR_lt (a : Array Int) (ref : Int) :
    ∀ (fuel r r2 : Nat), scanR a ref r fuel = some r2 → r2 < r := by
  intro fuel
  induction fuel with
  | zero => intro r r2 h; simp [scanR] at h
  | succ fuel ih =>
    intro r r2 h
    match r, h with
    | 0, h => cases h
    | r+1, h =>
      unfold scanR at h
      split at h
      · cases h
      · next v hv =>
        split at h
        · exact Nat.lt_succ_of_lt (ih r r2 h)
        · exact Option.some.inj h ▸ Nat.lt_succ_self r

theorem scanL_spec (a : Array Int) (ref : Int) :
    ∀ (fuel p q : Nat), p ≤ q → q < a.size →
      (∀ x : Int, a[q]? = some x → ¬ x < ref) →
      q < p + fuel →
      ∃ l2, scanL a ref p fuel = some l2 ∧ p ≤ l2 ∧ l2 ≤ q ∧
        (∀ x : Int, a[l2]? = some x → ¬ x < ref) ∧
        (∀ k, p ≤ k → k < l2 → ∀ x : Int, a[k]? = some x → x < ref) := by
  intro fuel
  induction fuel with
  | zero => intro p q hpq hqs hq hfuel; omega
  | succ fuel ih =>
    intro p q hpq hqs hq hfuel
    have hps : p < a.size := Nat.lt_of_le_of_lt hpq hqs
    have hv : a[p]? = some a[p] := Array.getElem?_eq_getElem hps
    by_cases hlt : a[p] < ref
    · have hpq' : p < q := by
        rcases Nat.eq_or_lt_of_le hpq with heq | h
        · have hv' : a[q]? = some a[p] := by rw [← heq]; exact hv
          exact absurd hlt (hq a[p] hv')
        · exact h
      obtain ⟨l2, hrun, hle, hlq, hstop, hpass⟩ := ih (p+1) q hpq' hqs hq (by omega)
      refine ⟨l2, ?_, by omega, hlq, hstop, ?_⟩
      · simp only [scanL, hv]
        rw [if_pos hlt]
        exact hrun
      · intro k hk1 hk2 x hx
        rcases Nat.eq_or_lt_of_le hk1 with heq | hlt2
        · rw [← heq] at hx
          rw [hv] at hx
          exact Option.some.inj hx ▸ hlt
        · exact hpass k hlt2 hk2 x hx
    · refine ⟨p, ?_, Nat.le_refl p, hpq, ?_, ?_⟩
      · simp only [scanL, hv]
        rw [if_neg hlt]
      · intro x hx
        rw [hv] at hx
        exact Option.some.inj hx ▸ hlt
      · intro k hk1 hk2 x hx
        omega

theorem scanR_spec (a : Array Int) (ref : Int) :
    ∀ (fuel r q : Nat), q < r → r ≤ a.size →
      (∀ x : Int, a[q]? = some x → ¬ ref < x) →
      r ≤ q + fuel →
      ∃ r2, scanR a ref r fuel = some r2 ∧ q ≤ r2 ∧ r2 < r ∧
        (∀ x : Int, a[r2]? = some x → ¬ ref < x) ∧
        (∀ k, r2 < k → k < r → ∀ x : Int, a[k]? = some x → ref < x) := by
  intro fuel
  induction fuel with
  | zero => intro r q hqr hrs hq hfuel; omega
  | succ fuel ih =>
    intro r q hqr hrs hq hfuel
    match r, hqr, hrs, hfuel with
    | r+1, hqr, hrs, hfuel =>
      have hrsz : r < a.size := Nat.lt_of_lt_of_le (Nat.lt_succ_self r) hrs
      have hv : a[r]? = some a[r] := Array.getElem?_eq_getElem hrsz
      by_cases hgt : ref < a[r]
      · have hqr' : q < r := by
          rcases Nat.lt_or_ge q r with h | h
          · exact h
          · have heq : q = r := by omega
            have hv' : a[q]? = some a[r] := by rw [heq]; exact hv
            exact absurd hgt (hq a[r] hv')
        obtain ⟨r2, hrun, hqr2, hr2, hstop, hpass⟩ :=
          ih r q hqr' (Nat.le_of_succ_le hrs) hq (by omega)
        refine ⟨r2, ?_, hqr2, Nat.lt_succ_of_lt hr2, hstop, ?_⟩
        · simp only [scanR, hv]
          rw [if_pos hgt]
          exact hrun
        · intro k hk1 hk2 x hx
          rcases Nat.lt_or_ge k r with h | h
          · exact hpass k hk1 h x hx
          · have : k = r := by omega
            rw [this, hv] at hx
            exact Option.some.inj hx ▸ hgt
      · refine ⟨r, ?_, Nat.le_of_lt_succ hqr, Nat.lt_succ_self r, ?_, ?_⟩
        · simp only [scanR, hv]
          rw [if_neg hgt]
        · intro x hx
          rw [hv] at hx
          exact Option.some.inj hx ▸ hgt
        · intro k hk1 hk2 x hx
          omega

theorem scanL_congr (a v : Array Int) (ref : Int) :
    ∀ (fuel p l2 : Nat), scanL a ref p fuel = some l2 →
      (∀ k, p ≤ k → k ≤ l2 → a[k]? = v[k]?) →
      scanL v ref p fuel = some l2 := by
  intro fuel
  induction fuel with
  | zero => intro p l2 h hag; simp [scanL] at h
  | succ fuel ih =>
    intro p l2 h hag
    have hle : p ≤ l2 := scanL_le a ref (fuel+1) p l2 h
    unfold scanL at h
    split at h
    · cases h
    · next w hv =>
      have hv2 : v[p]? = some w := (hag p (Nat.le_refl p) hle).symm.trans hv
      split at h
      · next hlt =>
        have := ih (p+1) l2 h fun k hk1 hk2 => hag k (Nat.le_of_succ_le hk1) hk2
        simp only [scanL, hv2]
        rw [if_pos hlt]
        exact this
      · next hlt =>
        simp only [scanL, hv2]
        rw [if_neg hlt]
        exact h

theorem scanR_congr (a v : Array Int) (ref : Int) :
    ∀ (fuel r r2 : Nat), scanR a ref r fuel = some r2 →
      (∀ k, r2 ≤ k → k < r → a[k]? = v[k]?) →
      scanR v ref r fuel = some r2 := by
  intro fuel
  induction fuel with
  | zero => intro r r2 h hag; simp [scanR] at h
  | succ fuel ih =>
    intro r r2 h hag
    have hlt2 : r2 < r := scanR_lt a ref (fuel+1) r r2 h
    match r, h, hag, hlt2 with
    | r+1, h, hag, hlt2 =>
      unfold scanR at h
      split at h
      · cases h
      · next w hv =>
        have hv2 : v[r]? = some w :=
          (hag r (Nat.le_of_lt_succ hlt2) (Nat.lt_succ_self r)).symm.trans hv
        split at h
        · next hgt =>
          have := ih r r2 h fun k hk1 hk2 => hag k hk1 (Nat.lt_succ_of_lt hk2)
          simp only [scanR, hv2]
          rw [if_pos hgt]
          exact this
        · next hgt =>
          simp only [scanR, hv2]
          rw [if_neg hgt]
          exact h

theorem sortedOn_le (a : Array Int) (b e : Nat) (h : SortedOn a b e) :
    ∀ i j, b ≤ i → i ≤ j → j < e → (a[i]?).getD 0 ≤ (a[j]?).getD 0 := by
  intro i j hbi hij
  induction j, hij using Nat.le_induction with
  | base => intro hje; exact le_refl _
  | succ j hij ih =>
    intro hje
    exact le_trans (ih (by omega)) (h j (by omega) (le_trans hbi hij) hje)

/-! ### The partition loop invariant

One induction establishes everything at once about `partitionLoop` run from a
state `(u, lp, r)` reachable inside `partition` on the range `[b, e)`:

* the loop terminates with a split `m` satisfying `b ≤ m < e`;
* Hoare postcondition: `[b, m]` is `≤ ref` and `(m, e)` is `≥ ref`;
* frame: positions outside `[b, e)` are untouched;
* the result is a permutation of the input;
* on a sorted range the loop is the identity (every exchange swaps equal
  values);
* locality: on any array `v` agreeing with `u` on `[b, e)` the loop takes
  exactly the same path, returns the same split, agrees with `u`'s result on
  `[b, e)` and keeps its own contents elsewhere.

The two sentinel hypotheses record that a stopper for each cursor exists
inside the still-unscanned part of the range; at entry the pivot occurrence
provides both, and after each exchange the freshly written cells do. -/

theorem partitionLoop_spec (b e : Nat) (ref : Int) :
    ∀ (fuel : Nat) (u v : Array Int) (lp r : Nat),
      b ≤ lp → lp ≤ r → r ≤ e → e ≤ u.size →
      (∀ k, b ≤ k → k < lp → ∀ x : Int, u[k]? = some x → x ≤ ref) →
      (∀ k, r ≤ k → k < e → ∀ x : Int, u[k]? = some x → ref ≤ x) →
      (∃ q, lp ≤ q ∧ q < e ∧ ∀ x : Int, u[q]? = some x → ref ≤ x) →
      (∃ q, b ≤ q ∧ q < r ∧ ∀ x : Int, u[q]? = some x → x ≤ ref) →
      u.size = v.size → (∀ k, b ≤ k → k < e → u[k]? = v[k]?) →
      r < lp + fuel →
      ∃ u2 m, partitionLoop ref fuel u lp r = some (u2, m) ∧
        b ≤ m ∧ m < e ∧ u2.size = u.size ∧
        (∀ k, b ≤ k → k ≤ m → ∀ x : Int, u2[k]? = some x → x ≤ ref) ∧
        (∀ k, m < k → k < e → ∀ x : Int, u2[k]? = some x → ref ≤ x) ∧
        (∀ k, k < b ∨ e ≤ k → u2[k]? = u[k]?) ∧
        u2.toList.Perm u.toList ∧
        (SortedOn u b e → u2 = u) ∧
        ∃ v2, partitionLoop ref fuel v lp r = some (v2, m) ∧
          v2.size = v.size ∧ (∀ k, b ≤ k → k < e → u2[k]? = v2[k]?) ∧
          (∀ k, k < b ∨ e ≤ k → v2[k]? = v[k]?) ∧ v2.toList.Perm v.toList := by
  intro fuel
  induction fuel with
  | zero =>
    intro u v lp r hblp hlpr hre hes hleft hright hsentL hsentR hsz hagree hfuel
    omega
  | succ fuel ih =>
    intro u v lp r hblp hlpr hre hes hleft hright hsentL hsentR hsz hagree hfuel
    obtain ⟨q1, hq1l, hq1e, hq1⟩ := hsentL
    obtain ⟨q2, hq2b, hq2r, hq2⟩ := hsentR
    have hq1s : q1 < u.size := Nat.lt_of_lt_of_le hq1e hes
    obtain ⟨l2, hL, hpl2, hl2q, hstopL, hpassL⟩ :=
      scanL_spec u ref (u.size+1) lp q1 hq1l hq1s
        (fun x hx => not_lt.mpr (hq1 x hx)) (by omega)
    obtain ⟨r2, hR, hqr2, hr2r, hstopR, hpassR⟩ :=
      scanR_spec u ref (u.size+1) r q2 hq2r (Nat.le_trans hre hes)
        (fun x hx => not_lt.mpr (hq2 x hx)) (by omega)
    have hl2e : l2 < e := Nat.lt_of_le_of_lt hl2q hq1e
    have hbr2 : b ≤ r2 := Nat.le_trans hq2b hqr2
    have hr2e : r2 < e := Nat.lt_of_lt_of_le hr2r hre
    have hbl2 : b ≤ l2 := Nat.le_trans hblp hpl2
    have hl2s : l2 < u.size := Nat.lt_of_lt_of_le hl2e hes
    have hr2s : r2 < u.size := Nat.lt_of_lt_of_le hr2e hes
    have hLv : scanL v ref lp (v.size+1) = some l2 := by
      rw [← hsz]
      exact scanL_congr u v ref (u.size+1) lp l2 hL
        (fun k hk1 hk2 => hagree k (Nat.le_trans hblp hk1) (Nat.lt_of_le_of_lt hk2 hl2e))
    have hRv : scanR v ref r (v.size+1) = some r2 := by
      rw [← hsz]
      exact scanR_congr u v ref (u.size+1) r r2 hR
        (fun k hk1 hk2 => hagree k (Nat.le_trans hbr2 hk1) (Nat.lt_of_lt_of_le hk2 hre))
    by_cases hcross : r2 ≤ l2
    · refine ⟨u, r2, ?_, hbr2, hr2e, rfl, ?_, ?_, fun k hk => rfl, List.Perm.refl _,
        fun _ => rfl, v, ?_, rfl, hagree, fun k hk => rfl, List.Perm.refl _⟩
      · simp only [partitionLoop, hL, hR]
        rw [if_pos hcross]
      · intro k hbk hkr2 x hx
        rcases Nat.eq_or_lt_of_le hkr2 with heq | hklt
        · have hx' : u[r2]? = some x := heq ▸ hx
          exact le_of_not_lt (hstopR x hx')
        · rcases Nat.lt_or_ge k lp with hklp | hklp
          · exact hleft k hbk hklp x hx
          · exact le_of_lt (hpassL k hklp (Nat.lt_of_lt_of_le hklt hcross) x hx)
      · intro k hr2k hke x hx
        rcases Nat.lt_or_ge k r with hkr | hkr
        · exact le_of_lt (hpassR k hr2k hkr x hx)
        · exact hright k hkr hke x hx
      · simp only [partitionLoop, hLv, hRv]
        rw [if_pos hcross]
    · push_neg at hcross
      have hl2sv : l2 < v.size := hsz ▸ hl2s
      have hr2sv : r2 < v.size := hsz ▸ hr2s
      have hxl : u[l2]? = some u[l2] := Array.getElem?_eq_getElem hl2s
      have hxr : u[r2]? = some u[r2] := Array.getElem?_eq_getElem hr2s
      have hrefl2 : ref ≤ u[l2] := le_of_not_lt (hstopL u[l2] hxl)
      have hr2ref : u[r2] ≤ ref := le_of_not_lt (hstopR u[r2] hxr)
      have hget : ∀ k : Nat, (swapN u l2 r2)[k]? =
          if r2 = k then u[l2]? else if l2 = k then u[r2]? else u[k]? :=
        getElem?_swapN u l2 r2 hl2s hr2s
      have hgetv : ∀ k : Nat, (swapN v l2 r2)[k]? =
          if r2 = k then v[l2]? else if l2 = k then v[r2]? else v[k]? :=
        getElem?_swapN v l2 r2 hl2sv hr2sv
      have hswsz : (swapN u l2 r2).size = u.size := size_swapN u l2 r2
      have hswszv : (swapN v l2 r2).size = v.size := size_swapN v l2 r2
      obtain ⟨u2, m, hrun2, hbm, hme, hsz2, hleft2, hright2, hframe2, hperm2, hsorted2,
          v2, hrunv2, hszv2, hagree2, hframev2, hpermv2⟩ :=
        ih (swapN u l2 r2) (swapN v l2 r2) (l2+1) r2
          (by omega) hcross (le_of_lt hr2e) (hswsz ▸ hes)
          (by
            intro k hbk hkl x hx
            rw [hget k] at hx
            rcases Nat.lt_or_ge k l2 with hkl2 | hkl2
            · rw [if_neg (by omega), if_neg (by omega)] at hx
              rcases Nat.lt_or_ge k lp with hklp | hklp
              · exact hleft k hbk hklp x hx
              · exact le_of_lt (hpassL k hklp hkl2 x hx)
            · have hkeq : k = l2 := by omega
              rw [if_neg (by omega), if_pos hkeq.symm] at hx
              have := hxr.symm.trans hx
              exact Option.some.inj this ▸ hr2ref
          )
          (by
            intro k hr2k hke x hx
            rw [hget k] at hx
            rcases Nat.eq_or_lt_of_le hr2k with heq | hklt
            · rw [if_pos heq] at hx
              have := hxl.symm.trans hx
              exact Option.some.inj this ▸ hrefl2
            · rw [if_neg (by omega), if_neg (by omega)] at hx
              rcases Nat.lt_or_ge k r with hkr | hkr
              · exact le_of_lt (hpassR k hklt hkr x hx)
              · exact hright k hkr hke x hx
          )
          ⟨r2, hcross, hr2e, by
            intro x hx
            rw [hget r2, if_pos rfl] at hx
            have := hxl.symm.trans hx
            exact Option.some.inj this ▸ hrefl2⟩
          ⟨l2, hbl2, hcross, by
            intro x hx
            rw [hget l2, if_neg (by omega), if_pos rfl] at hx
            have := hxr.symm.trans hx
            exact Option.some.inj this ▸ hr2ref⟩
          (by rw [hswsz, hswszv, hsz])
          (by
            intro k hbk hke
            rw [hget k, hgetv k]
            rcases eq_or_ne r2 k with heq | hne
            · rw [if_pos heq, if_pos heq]
              exact hagree l2 hbl2 hl2e
            · rw [if_neg hne, if_neg hne]
              rcases eq_or_ne l2 k with heq2 | hne2
              · rw [if_pos heq2, if_pos heq2]
                exact hagree r2 hbr2 hr2e
              · rw [if_neg hne2, if_neg hne2]
                exact hagree k hbk hke
          )
          (by omega)
      refine ⟨u2, m, ?_, hbm, hme, hsz2.trans hswsz, hleft2, hright2, ?_,
        hperm2.trans (toList_swapN_perm u l2 r2 hl2s hr2s), ?_,
        v2, ?_, hszv2.trans hswszv, hagree2, ?_,
        hpermv2.trans (toList_swapN_perm v l2 r2 hl2sv hr2sv)⟩
      · simp only [partitionLoop, hL, hR]
        rw [if_neg (not_le.mpr hcross)]
        exact hrun2
      · intro k hk
        rw [hframe2 k hk, hget k, if_neg (by omega), if_neg (by omega)]
      · intro hsort
        have h1 : (u[l2]?).getD 0 ≤ (u[r2]?).getD 0 :=
          sortedOn_le u b e hsort l2 r2 hbl2 (le_of_lt hcross) hr2e
        rw [hxl, hxr] at h1
        have hvals : u[l2] = u[r2] := le_antisymm h1 (le_trans hr2ref hrefl2)
        have hswid : swapN u l2 r2 = u := swapN_self u l2 r2 (by rw [hxl, hxr, hvals])
        have h2 : u2 = swapN u l2 r2 := hsorted2 (by rw [hswid]; exact hsort)
        exact h2.trans hswid
      · simp only [partitionLoop, hLv, hRv]
        rw [if_neg (not_le.mpr hcross)]
        exact hrunv2
      · intro k hk
        rw [hframev2 k hk, hgetv k, if_neg (by omega), if_neg (by omega)]

/-- Entry-point form of the loop invariant: `partition` on a non-empty range
whose pivot value occurs in the range.  The pivot occurrence provides the
initial sentinel for both cursors, which is exactly the safety argument of
spec section 4.1. -/
theorem partition_spec (u v : Array Int) (b e : Nat) (ref : Int)
    (hbe : b < e) (hes : e ≤ u.size)
    (hpiv : ∃ p, b ≤ p ∧ p < e ∧ u[p]? = some ref)
    (hsz : u.size = v.size) (hagree : ∀ k, b ≤ k → k < e → u[k]? = v[k]?) :
    ∃ u2 m, partition u b e ref = some (u2, m) ∧
      b ≤ m ∧ m < e ∧ u2.size = u.size ∧
      (∀ k, b ≤ k → k ≤ m → ∀ x : Int, u2[k]? = some x → x ≤ ref) ∧
      (∀ k, m < k → k < e → ∀ x : Int, u2[k]? = some x → ref ≤ x) ∧
      (∀ k, k < b ∨ e ≤ k → u2[k]? = u[k]?) ∧
      u2.toList.Perm u.toList ∧
      (SortedOn u b e → u2 = u) ∧
      ∃ v2, partition v b e ref = some (v2, m) ∧
        v2.size = v.size ∧ (∀ k, b ≤ k → k < e → u2[k]? = v2[k]?) ∧
        (∀ k, k < b ∨ e ≤ k → v2[k]? = v[k]?) ∧ v2.toList.Perm v.toList := by
  obtain ⟨p, hbp, hpe, hp⟩ := hpiv
  obtain ⟨u2, m, hrun, hbm, hme, hsz2, hleft2, hright2, hframe2, hperm2, hsortid2,
      v2, hrunv, hszv2, hagree2, hframev2, hpermv2⟩ :=
    partitionLoop_spec b e ref (u.size+1) u v b e (Nat.le_refl b) (le_of_lt hbe)
      (Nat.le_refl e) hes
      (fun k hk1 hk2 _ _ => absurd hk2 (by omega))
      (fun k hk1 hk2 _ _ => absurd hk1 (by omega))
      ⟨p, hbp, hpe, fun x hx => le_of_eq (Option.some.inj (hp.symm.trans hx))⟩
      ⟨p, hbp, hpe, fun x hx => le_of_eq (Option.some.inj (hp.symm.trans hx)).symm⟩
      hsz hagree (by omega)
  refine ⟨u2, m, ?_, hbm, hme, hsz2, hleft2, hright2, hframe2, hperm2, hsortid2,
    v2, ?_, hszv2, hagree2, hframev2, hpermv2⟩
  · unfold partition
    rw [if_neg (not_le.mpr hbe)]
    exact hrun
  · unfold partition
    rw [if_neg (not_le.mpr hbe), ← hsz]
    exact hrunv

theorem sortedOn_mono (a : Array Int) (b e b2 e2 : Nat) (h : SortedOn a b e)
    (hb : b ≤ b2) (he : e2 ≤ e) : SortedOn a b2 e2 := by
  intro i hie hbi hie2
  exact h i (by omega) (by omega) (by omega)

/-! ### The sequential sort

`quicksortF_spec` carries through the recursion the same bundle as the
partition lemma: termination with sufficient fuel, size preservation, frame
outside the range, permutation, identity on sorted ranges, and locality
against any array agreeing on the range. -/

theorem quicksortF_spec :
    ∀ (fuel : Nat) (u v : Array Int) (b e : Nat),
      e ≤ u.size → e ≤ b + fuel →
      u.size = v.size → (∀ k, b ≤ k → k < e → u[k]? = v[k]?) →
      ∃ u2, quicksortF fuel u b e = some u2 ∧
        u2.size = u.size ∧
        (∀ k, k < b ∨ e ≤ k → u2[k]? = u[k]?) ∧
        u2.toList.Perm u.toList ∧
        (SortedOn u b e → u2 = u) ∧
        ∃ v2, quicksortF fuel v b e = some v2 ∧
          v2.size = v.size ∧
          (∀ k, b ≤ k → k < e → u2[k]? = v2[k]?) ∧
          (∀ k, k < b ∨ e ≤ k → v2[k]? = v[k]?) ∧
          v2.toList.Perm v.toList := by
  intro fuel
  induction fuel with
  | zero =>
    intro u v b e hes hfuel hsz hagree
    have hbe : ¬ b < e := by omega
    refine ⟨u, ?_, rfl, fun k hk => rfl, List.Perm.refl _, fun _ => rfl,
      v, ?_, rfl, hagree, fun k hk => rfl, List.Perm.refl _⟩
    · simp only [quicksortF]
      rw [if_neg hbe]
    · simp only [quicksortF]
      rw [if_neg hbe]
  | succ fuel ih =>
    intro u v b e hes hfuel hsz hagree
    by_cases hbe : b < e
    · have hdl : (e - b) / 2 < e - b := Nat.div_lt_self (by omega) (by omega)
      have hmid : b + (e - b) / 2 < e := by omega
      have hmidb : b ≤ b + (e - b) / 2 := Nat.le_add_right b _
      have hmids : b + (e - b) / 2 < u.size := Nat.lt_of_lt_of_le hmid hes
      have hpiv : u[b + (e - b) / 2]? = some u[b + (e - b) / 2] :=
        Array.getElem?_eq_getElem hmids
      have hpivv : v[b + (e - b) / 2]? = some u[b + (e - b) / 2] :=
        (hagree _ hmidb hmid).symm.trans hpiv
      obtain ⟨u1, m, hpart, hbm, hme, hsz1, hleft1, hright1, hframe1, hperm1, hsortid1,
          v1, hpartv, hszv1, hagree1, hframev1, hpermv1⟩ :=
        partition_spec u v b e u[b + (e - b) / 2] hbe hes
          ⟨b + (e - b) / 2, hmidb, hmid, hpiv⟩ hsz hagree
      obtain ⟨u2, hqL, hsz2, hframe2, hperm2, hsortid2,
          v2, hqLv, hszv2, hagree2, hframev2, hpermv2⟩ :=
        ih u1 v1 b m (by rw [hsz1]; omega) (by omega)
          (by rw [hsz1, hszv1, hsz])
          (fun k hk1 hk2 => hagree1 k hk1 (Nat.lt_trans hk2 hme))
      obtain ⟨u3, hqR, hsz3, hframe3, hperm3, hsortid3,
          v3, hqRv, hszv3, hagree3, hframev3, hpermv3⟩ :=
        ih u2 v2 (m+1) e (by rw [hsz2, hsz1]; omega) (by omega)
          (by rw [hsz2, hsz1, hszv2, hszv1, hsz])
          (fun k hk1 hk2 =>
            (hframe2 k (Or.inr (by omega))).trans
              ((hagree1 k (by omega) hk2).trans (hframev2 k (Or.inr (by omega))).symm))
      refine ⟨u3, ?_, (hsz3.trans hsz2).trans hsz1, ?_,
        hperm3.trans (hperm2.trans hperm1), ?_,
        v3, ?_, (hszv3.trans hszv2).trans hszv1, ?_, ?_,
        hpermv3.trans (hpermv2.trans hpermv1)⟩
      · simp only [quicksortF, hpiv, hpart, hqL]
        rw [if_pos hbe]
        exact hqR
      · intro k hk
        rw [hframe3 k (by omega), hframe2 k (by omega), hframe1 k hk]
      · intro hsort
        have hu1 : u1 = u := hsortid1 hsort
        have hu2 : u2 = u1 := hsortid2 (by
          rw [hu1]
          exact sortedOn_mono u b e b m hsort (Nat.le_refl b) (le_of_lt hme))
        have hu3 : u3 = u2 := hsortid3 (by
          rw [hu2, hu1]
          exact sortedOn_mono u b e (m+1) e hsort (by omega) (Nat.le_refl e))
        rw [hu3, hu2, hu1]
      · simp only [quicksortF, hpivv, hpartv, hqLv]
        rw [if_pos hbe]
        exact hqRv
      · intro k hk1 hk2
        rcases Nat.lt_or_ge k (m+1) with hkm | hkm
        · rw [hframe3 k (Or.inl hkm), hframev3 k (Or.inl hkm)]
          rcases Nat.lt_or_ge k m with hkm2 | hkm2
          · exact hagree2 k hk1 hkm2
          · have hkeq : k = m := by omega
            rw [hframe2 k (Or.inr hkm2), hframev2 k (Or.inr hkm2)]
            exact hagree1 k hk1 hk2
        · exact hagree3 k hkm hk2
      · intro k hk
        rw [hframev3 k (by omega), hframev2 k (by omega), hframev1 k hk]
    · refine ⟨u, ?_, rfl, fun k hk => rfl, List.Perm.refl _, fun _ => rfl,
        v, ?_, rfl, hagree, fun k hk => rfl, List.Perm.refl _⟩
      · simp only [quicksortF]
        rw [if_neg hbe]
      · simp only [quicksortF]
        rw [if_neg hbe]

/-- All conclusions of `quicksortF_spec` transported to the `quicksort` entry
point (fuel `e - b` is sufficient). -/
theorem quicksort_spec (a : Array Int) (b e : Nat) (hes : e ≤ a.size) :
    ∃ a2, quicksort a b e = some a2 ∧ a2.size = a.size ∧
      (∀ k, k < b ∨ e ≤ k → a2[k]? = a[k]?) ∧
      a2.toList.Perm a.toList ∧ (SortedOn a b e → a2 = a) := by
  obtain ⟨u2, hrun, h1, h2, h3, h4, _⟩ :=
    quicksortF_spec (e - b) a a b e hes (by omega) rfl (fun k hk1 hk2 => rfl)
  exact ⟨u2, hrun, h1, h2, h3, h4⟩

theorem quicksort_size (a : Array Int) (b e : Nat) (x : Array Int)
    (hes : e ≤ a.size) (h : quicksort a b e = some x) : x.size = a.size := by
  obtain ⟨a2, hrun, hsize, _, _, _⟩ := quicksort_spec a b e hes
  rw [hrun] at h
  exact Option.some.inj h ▸ hsize

/-- One-level unfolding of the recursive case of `quicksortF` into a bind. -/
theorem quicksortF_succ_eq (fuel : Nat) (a : Array Int) (b e : Nat) (ref : Int)
    (a1 : Array Int) (m : Nat) (hbe : b < e)
    (hpiv : a[b + (e - b) / 2]? = some ref)
    (hpart : partition a b e ref = some (a1, m)) :
    quicksortF (fuel+1) a b e =
      (quicksortF fuel a1 b m).bind (fun x => quicksortF fuel x (m+1) e) := by
  simp only [quicksortF, hpiv, hpart]
  rw [if_pos hbe]
  cases hqq : quicksortF fuel a1 b m <;> rfl

theorem quicksortF_mono :
    ∀ (fuel : Nat) (a : Array Int) (b e : Nat) (x : Array Int),
      quicksortF fuel a b e = some x → quicksortF (fuel+1) a b e = some x := by
  intro fuel
  induction fuel with
  | zero =>
    intro a b e x h
    simp only [quicksortF] at h
    by_cases hbe : b < e
    · rw [if_pos hbe] at h
      cases h
    · rw [if_neg hbe] at h
      simp only [quicksortF]
      rw [if_neg hbe]
      exact h
  | succ fuel ih =>
    intro a b e x h
    by_cases hbe : b < e
    · simp only [quicksortF] at h
      rw [if_pos hbe] at h
      split at h
      · cases h
      · next ref heq =>
        split at h
        · cases h
        · next a1 m hq =>
          split at h
          · cases h
          · next a2 hl =>
            have hl2 := ih a1 b m a2 hl
            have h2 := ih a2 (m+1) e x h
            rw [quicksortF_succ_eq (fuel+1) a b e _ a1 m hbe heq hq, hl2]
            exact h2
    · simp only [quicksortF] at h ⊢
      rw [if_neg hbe] at h ⊢
      exact h

theorem quicksortF_mono_le (fuel fuel2 : Nat) (hle : fuel ≤ fuel2)
    (a : Array Int) (b e : Nat) (x : Array Int)
    (h : quicksortF fuel a b e = some x) : quicksortF fuel2 a b e = some x := by
  induction fuel2, hle using Nat.le_induction with
  | base => exact h
  | succ n hn ihn => exact quicksortF_mono n a b e x ihn

/-- Unfolding of one recursion level of `quicksort` into the bind of the two
recursive calls the source makes: `quicksort(begin, m)` then
`quicksort(m + 1, end)` (src/main.cpp lines 93-94). -/
theorem quicksort_fanout (a : Array Int) (b e : Nat) (ref : Int) (a1 : Array Int) (m : Nat)
    (hbe : b < e) (hes : e ≤ a.size)
    (hpiv : a[b + (e - b) / 2]? = some ref)
    (hpart : partition a b e ref = some (a1, m))
    (hbm : b ≤ m) (hme : m < e) (hsz1 : a1.size = a.size) :
    quicksort a b e = (quicksort a1 b m).bind (fun x => quicksort x (m+1) e) := by
  obtain ⟨a2, hqL, hsz2, _, _, _, _⟩ :=
    quicksortF_spec (m - b) a1 a1 b m (by rw [hsz1]; omega) (by omega) rfl
      (fun k hk1 hk2 => rfl)
  have hqL2 : quicksortF (e - b - 1) a1 b m = some a2 :=
    quicksortF_mono_le (m - b) (e - b - 1) (by omega) a1 b m a2 hqL
  obtain ⟨a3, hqR, _, _, _, _, _⟩ :=
    quicksortF_spec (e - (m+1)) a2 a2 (m+1) e (by rw [hsz2, hsz1]; omega) (by omega) rfl
      (fun k hk1 hk2 => rfl)
  have hqR2 : quicksortF (e - b - 1) a2 (m+1) e = some a3 :=
    quicksortF_mono_le (e - (m+1)) (e - b - 1) (by omega) a2 (m+1) e a3 hqR
  have hfe : e - b = (e - b - 1) + 1 := by omega
  show quicksortF (e - b) a b e = _
  rw [hfe]
  simp only [quicksortF, hpiv, hpart, hqL2]
  rw [if_pos hbe, hqR2]
  rw [show quicksort a1 b m = some a2 from hqL]
  exact (show quicksort a2 (m+1) e = some a3 from hqR).symm

/-- The two recursive calls of a fan-out node act on disjoint subranges and
therefore commute: running the `(m, end)` task before the `[begin, m)` task
gives the same final array.  This is the order-independence used to justify
modelling `tbb::parallel_invoke` by an arbitrary sequentialisation. -/
theorem quicksort_comm (a : Array Int) (b m e : Nat)
    (hbm : b ≤ m) (hme : m < e) (hes : e ≤ a.size) :
    (quicksort a (m+1) e).bind (fun x => quicksort x b m) =
    (quicksort a b m).bind (fun x => quicksort x (m+1) e) := by
  obtain ⟨p2, hP, hPsz, hPframe, _, _, _⟩ :=
    quicksortF_spec (m - b) a a b m (by omega) (by omega) rfl (fun k hk1 hk2 => rfl)
  obtain ⟨q2, hQ, hQsz, hQframe, _, _, _⟩ :=
    quicksortF_spec (e - (m+1)) a a (m+1) e hes (by omega) rfl (fun k hk1 hk2 => rfl)
  obtain ⟨q3, hQ2, _, _, _, _, x2, hX, _, hXagree, hXframe, _⟩ :=
    quicksortF_spec (e - (m+1)) a p2 (m+1) e hes (by omega) hPsz.symm
      (fun k hk1 hk2 => (hPframe k (Or.inr (by omega))).symm)
  obtain ⟨p3, hP2, _, _, _, _, y2, hY, _, hYagree, hYframe, _⟩ :=
    quicksortF_spec (m - b) a q2 b m (by omega) (by omega) hQsz.symm
      (fun k hk1 hk2 => (hQframe k (Or.inl (by omega))).symm)
  have hq32 : q3 = q2 := Option.some.inj (hQ2.symm.trans hQ)
  have hp32 : p3 = p2 := Option.some.inj (hP2.symm.trans hP)
  rw [hq32] at hXagree
  rw [hp32] at hYagree
  have hYX : y2 = x2 := by
    refine ext_of_getElem? y2 x2 fun k => ?_
    rcases Nat.lt_or_ge k b with hkb | hkb
    · rw [hYframe k (Or.inl hkb), hQframe k (Or.inl (by omega)),
        hXframe k (Or.inl (by omega)), hPframe k (Or.inl hkb)]
    · rcases Nat.lt_or_ge k m with hkm | hkm
      · rw [← hYagree k hkb hkm, hXframe k (Or.inl (by omega))]
      · rcases Nat.lt_or_ge k (m+1) with hkm1 | hkm1
        · have hkeq : k = m := by omega
          rw [hYframe k (Or.inr hkm), hQframe k (Or.inl (by omega)),
            hXframe k (Or.inl hkm1), hPframe k (Or.inr hkm)]
        · rcases Nat.lt_or_ge k e with hke | hke
          · rw [hYframe k (Or.inr hkm), hXagree k hkm1 hke]
          · rw [hYframe k (Or.inr hkm), hQframe k (Or.inr hke),
              hXframe k (Or.inr hke), hPframe k (Or.inr hkm)]
  rw [show quicksort a (m+1) e = some q2 from hQ,
    show quicksort a b m = some p2 from hP]
  show quicksort q2 b m = quicksort p2 (m+1) e
  rw [show quicksort q2 b m = some y2 from hY,
    show quicksort p2 (m+1) e = some x2 from hX, hYX]

/-! ### The parallel sort equals the sequential sort -/

theorem parallelQuicksortF_eq (g : Nat) (sched : Nat → Nat → Bool) :
    ∀ (fuel : Nat) (a : Array Int) (b e : Nat), e ≤ a.size → e ≤ b + fuel →
      parallelQuicksortF g sched fuel a b e = quicksort a b e := by
  intro fuel
  induction fuel with
  | zero =>
    intro a b e hes hfuel
    have hbe : ¬ b < e := by omega
    have hzero : e - b = 0 := by omega
    show _ = quicksortF (e - b) a b e
    rw [hzero]
    simp only [parallelQuicksortF, quicksortF]
  | succ fuel ih =>
    intro a b e hes hfuel
    by_cases hbe : b < e
    · by_cases hg : e - b ≤ g
      · simp only [parallelQuicksortF]
        rw [if_pos hbe, if_pos hg]
      · have hdl : (e - b) / 2 < e - b := Nat.div_lt_self (by omega) (by omega)
        have hmid : b + (e - b) / 2 < e := by omega
        have hmids : b + (e - b) / 2 < a.size := Nat.lt_of_lt_of_le hmid hes
        have hpiv : a[b + (e - b) / 2]? = some a[b + (e - b) / 2] :=
          Array.getElem?_eq_getElem hmids
        obtain ⟨a1, m, hpart, hbm, hme, hsz1, _, _, _, _, _, _⟩ :=
          partition_spec a a b e a[b + (e - b) / 2] hbe hes
            ⟨b + (e - b) / 2, Nat.le_add_right b _, hmid, hpiv⟩ rfl
            (fun k hk1 hk2 => rfl)
        have hfan := quicksort_fanout a b e a[b + (e - b) / 2] a1 m hbe hes
          hpiv hpart hbm hme hsz1
        simp only [parallelQuicksortF, hpiv, hpart]
        rw [if_pos hbe, if_neg hg]
        by_cases hs : sched b e
        · rw [if_pos hs]
          obtain ⟨a2, hqL, hsz2, _, _, _⟩ :=
            quicksort_spec a1 b m (by rw [hsz1]; omega)
          rw [ih a1 b m (by rw [hsz1]; omega) (by omega)]
          simp only [hqL]
          rw [ih a2 (m+1) e (by rw [hsz2, hsz1]; omega) (by omega)]
          refine (show quicksort a2 (m+1) e = (quicksort a1 b m).bind
            (fun x => quicksort x (m+1) e) by rw [hqL]; rfl).trans hfan.symm
        · rw [if_neg hs]
          obtain ⟨a2, hqR, hsz2, _, _, _⟩ :=
            quicksort_spec a1 (m+1) e (by rw [hsz1]; omega)
          rw [ih a1 (m+1) e (by rw [hsz1]; omega) (by omega)]
          simp only [hqR]
          rw [ih a2 b m (by rw [hsz2, hsz1]; omega) (by omega)]
          have hcomm := quicksort_comm a1 b m e hbm hme (by rw [hsz1]; omega)
          refine (show quicksort a2 b m = (quicksort a1 (m+1) e).bind
            (fun x => quicksort x b m) by rw [hqR]; rfl).trans (hcomm.trans hfan.symm)
    · have hzero2 : ¬ b < e := hbe
      simp only [parallelQuicksortF]
      rw [if_neg hbe]
      obtain ⟨a2, hrun, _, _, _, hid⟩ := quicksort_spec a b e hes
      rw [hrun, hid (by intro i h1 h2 h3; omega)]

theorem parallelQuicksort_eq (g : Nat) (sched : Nat → Nat → Bool)
    (a : Array Int) (b e : Nat) (hes : e ≤ a.size) :
    parallelQuicksort g sched a b e = quicksort a b e :=
  parallelQuicksortF_eq g sched (e - b) a b e hes (by omega)

/-! ### Claim theorems -/

/-- C1: the claimed order property fails on the code.  On the input
`[5, 10, 3]` the sequential `quicksort` (and `parallelQuicksort`, which
delegates to it below the default granularity) terminates and returns
`[5, 3, 10]`, which is not non-descending: the split position `m` returned by
the Hoare partition is excluded from both recursive calls
(`quicksort(begin, m)` and `quicksort(m+1, end)`), so the element left at `m`
is never placed.  The program's own check in `main` (comparison against
`std::sort`) would report this failure. -/
theorem order_property_fails :
    quicksort #[(5:Int), 10, 3] 0 3 = some #[(5:Int), 3, 10] ∧
    parallelQuicksort defaultGranularity (fun _ _ => true) #[(5:Int), 10, 3] 0 3 =
      some #[(5:Int), 3, 10] ∧
    ¬ SortedOn #[(5:Int), 3, 10] 0 3 := by
  refine ⟨by decide, by decide, by decide⟩

/-- C2: permutation property.  For every array and every in-bounds range,
both `quicksort` and `parallelQuicksort` (any granularity, any schedule)
terminate and produce a permutation of the input array: the code only ever
exchanges elements in place. -/
theorem sort_permutation (a : Array Int) (b e g : Nat) (sched : Nat → Nat → Bool)
    (hes : e ≤ a.size) :
    (∃ s, quicksort a b e = some s ∧ s.toList.Perm a.toList) ∧
    (∃ s, parallelQuicksort g sched a b e = some s ∧ s.toList.Perm a.toList) := by
  obtain ⟨s, hrun, _, _, hperm, _⟩ := quicksort_spec a b e hes
  exact ⟨⟨s, hrun, hperm⟩, ⟨s, (parallelQuicksort_eq g sched a b e hes).trans hrun, hperm⟩⟩

theorem sort_permutation_witness :
    (∃ s, quicksort #[(3:Int), 1, 2] 0 3 = some s ∧
      s.toList.Perm (#[(3:Int), 1, 2]).toList) ∧
    (∃ s, parallelQuicksort 1 (fun _ _ => false) #[(3:Int), 1, 2] 0 3 = some s ∧
      s.toList.Perm (#[(3:Int), 1, 2]).toList) :=
  sort_permutation #[(3:Int), 1, 2] 0 3 1 (fun _ _ => false) (by decide)

/-- C3: sequential/parallel equivalence.  For every input array, every
in-bounds range, every granularity threshold (in particular every `g ≥ 1`) and
every fork-join schedule, `parallelQuicksort` returns exactly the result of
`quicksort`: the threshold and the order in which the two tasks of each
fork-join pair execute never change the result (the subranges are disjoint),
and when the threshold is at least the range size the very first delegation
test hands the whole range to `quicksort`. -/
theorem parallel_eq_sequential (a : Array Int) (b e g : Nat) (sched : Nat → Nat → Bool)
    (hg : 1 ≤ g) (hes : e ≤ a.size) :
    parallelQuicksort g sched a b e = quicksort a b e :=
  parallelQuicksort_eq g sched a b e hes

theorem parallel_eq_sequential_witness :
    parallelQuicksort 2 (fun b _ => b % 2 == 0) #[(5:Int), 3, 8, 1, 9, 2] 0 6 =
      quicksort #[(5:Int), 3, 8, 1, 9, 2] 0 6 :=
  parallel_eq_sequential #[(5:Int), 3, 8, 1, 9, 2] 0 6 2 (fun b _ => b % 2 == 0)
    (by decide) (by decide)

/-- C4: partition postcondition.  For a non-empty in-bounds range and a pivot
value that occurs at some position of the range, `partition` returns a split
`m` with `b ≤ m < e`, every element of `[b, m]` at most the pivot, and every
element of `(m, e)` at least the pivot. -/
theorem partition_postcondition (a : Array Int) (b e p : Nat) (ref : Int)
    (hbe : b < e) (hes : e ≤ a.size) (hbp : b ≤ p) (hpe : p < e)
    (hp : a[p]? = some ref) :
    ∃ a2 m, partition a b e ref = some (a2, m) ∧ b ≤ m ∧ m < e ∧
      (∀ k, b ≤ k → k ≤ m → ∀ x : Int, a2[k]? = some x → x ≤ ref) ∧
      (∀ k, m < k → k < e → ∀ x : Int, a2[k]? = some x → ref ≤ x) := by
  obtain ⟨a2, m, hrun, hbm, hme, _, hl, hr, _, _, _, _⟩ :=
    partition_spec a a b e ref hbe hes ⟨p, hbp, hpe, hp⟩ rfl (fun k hk1 hk2 => rfl)
  exact ⟨a2, m, hrun, hbm, hme, hl, hr⟩

theorem partition_postcondition_witness :
    ∃ a2 m, partition #[(5:Int), 10, 3] 0 3 10 = some (a2, m) ∧ 0 ≤ m ∧ m < 3 ∧
      (∀ k, 0 ≤ k → k ≤ m → ∀ x : Int, a2[k]? = some x → x ≤ 10) ∧
      (∀ k, m < k → k < 3 → ∀ x : Int, a2[k]? = some x → 10 ≤ x) :=
  partition_postcondition #[(5:Int), 10, 3] 0 3 1 10 (by decide) (by decide)
    (by decide) (by decide) (by decide)

/-- C5: the two-cursor scan of `partition` is safe when the pivot value is
drawn from within the range (as the sort engine's midpoint selection
guarantees): the loop terminates and no cursor is ever dereferenced outside
the underlying buffer — in the embedding any such dereference (or
non-termination) would make the result `none`, and the result is proved to be
`some` with an in-range split, also when all elements of the range are equal
(no infinite loop on `[4,4,4,4]`, see the witness). -/
theorem partition_scan_safe (a : Array Int) (b e p : Nat) (ref : Int)
    (hbe : b < e) (hes : e ≤ a.size) (hbp : b ≤ p) (hpe : p < e)
    (hp : a[p]? = some ref) :
    ∃ pm, partition a b e ref = some pm ∧ b ≤ pm.2 ∧ pm.2 < e := by
  obtain ⟨a2, m, hrun, hbm, hme, _, _, _, _, _, _, _⟩ :=
    partition_spec a a b e ref hbe hes ⟨p, hbp, hpe, hp⟩ rfl (fun k hk1 hk2 => rfl)
  exact ⟨(a2, m), hrun, hbm, hme⟩

theorem partition_scan_safe_witness :
    ∃ pm, partition #[(4:Int), 4, 4, 4] 0 4 4 = some pm ∧ 0 ≤ pm.2 ∧ pm.2 < 4 :=
  partition_scan_safe #[(4:Int), 4, 4, 4] 0 4 0 4 (by decide) (by decide)
    (by decide) (by decide) (by decide)

/-- C6: the code does not compute the same result as the spec's reference
procedure.  The reference procedure recurses on `[begin, m]` (including the
split position) and `(m, end]`; the code recurses on `[begin, m)` and
`(m, end]`, excluding position `m` from both calls.  On `[5, 10, 3]` the code
returns the unsorted `[5, 3, 10]` while the reference procedure returns the
sorted `[3, 5, 10]`. -/
theorem quicksort_ne_spec_procedure :
    quicksort #[(5:Int), 10, 3] 0 3 = some #[(5:Int), 3, 10] ∧
    quicksortSpec #[(5:Int), 10, 3] 0 3 = some #[(3:Int), 5, 10] := by
  refine ⟨by decide, by decide⟩

/-- C7: termination.  For every in-bounds range the split returned by
`partition` under the sort engines' pivot policy satisfies `b ≤ m < e`, so
both recursive subranges `[b, m)` and `[m+1, e)` are strictly smaller than
`[b, e)`, and both `quicksort` and `parallelQuicksort` terminate (return
`some`) on every input. -/
theorem sort_terminates (a : Array Int) (b e g : Nat) (sched : Nat → Nat → Bool)
    (hes : e ≤ a.size) :
    (∃ s, quicksort a b e = some s) ∧
    (∃ s, parallelQuicksort g sched a b e = some s) ∧
    (∀ ref a1 m, b < e → (∃ q, b ≤ q ∧ q < e ∧ a[q]? = some ref) →
      partition a b e ref = some (a1, m) →
      b ≤ m ∧ m < e ∧ m - b < e - b ∧ e - (m+1) < e - b) := by
  obtain ⟨s, hrun, _, _, _, _⟩ := quicksort_spec a b e hes
  refine ⟨⟨s, hrun⟩, ⟨s, (parallelQuicksort_eq g sched a b e hes).trans hrun⟩, ?_⟩
  intro ref a1 m hbe hpiv hpart
  obtain ⟨a2, m2, hrun2, hbm, hme, _, _, _, _, _, _, _⟩ :=
    partition_spec a a b e ref hbe hes hpiv rfl (fun k hk1 hk2 => rfl)
  rw [hrun2] at hpart
  have hm : m2 = m := congrArg Prod.snd (Option.some.inj hpart)
  rw [← hm]
  refine ⟨hbm, hme, by omega, by omega⟩

theorem sort_terminates_witness :
    (∃ s, quicksort #[(2:Int), 2, 2] 0 3 = some s) ∧
    (∃ s, parallelQuicksort 1 (fun _ _ => true) #[(2:Int), 2, 2] 0 3 = some s) ∧
    (∀ ref a1 m, 0 < 3 → (∃ q, 0 ≤ q ∧ q < 3 ∧ (#[(2:Int), 2, 2])[q]? = some ref) →
      partition #[(2:Int), 2, 2] 0 3 ref = some (a1, m) →
      0 ≤ m ∧ m < 3 ∧ m - 0 < 3 - 0 ∧ 3 - (m+1) < 3 - 0) :=
  sort_terminates #[(2:Int), 2, 2] 0 3 1 (fun _ _ => true) (by decide)

/-- C8: idempotence and base cases.  If the range `[b, e)` of the input is
already non-descending — in particular if it is empty or a single element —
then `quicksort` and `parallelQuicksort` return the array unchanged (every
exchange the partition scan would make swaps equal values) and raise no
error. -/
theorem sorted_input_unchanged (a : Array Int) (b e g : Nat) (sched : Nat → Nat → Bool)
    (hes : e ≤ a.size) (hsorted : SortedOn a b e) :
    quicksort a b e = some a ∧ parallelQuicksort g sched a b e = some a := by
  obtain ⟨a2, hrun, _, _, _, hid⟩ := quicksort_spec a b e hes
  have h2 : a2 = a := hid hsorted
  exact ⟨h2 ▸ hrun, (parallelQuicksort_eq g sched a b e hes).trans (h2 ▸ hrun)⟩

theorem sorted_input_unchanged_witness :
    (quicksort (#[] : Array Int) 0 0 = some #[] ∧
      parallelQuicksort 1 (fun _ _ => true) (#[] : Array Int) 0 0 = some #[]) ∧
    (quicksort #[(7:Int)] 0 1 = some #[(7:Int)] ∧
      parallelQuicksort 1 (fun _ _ => true) #[(7:Int)] 0 1 = some #[(7:Int)]) ∧
    (quicksort #[(1:Int), 2, 2, 5] 0 4 = some #[(1:Int), 2, 2, 5] ∧
      parallelQuicksort 1 (fun _ _ => false) #[(1:Int), 2, 2, 5] 0 4 =
        some #[(1:Int), 2, 2, 5]) :=
  ⟨sorted_input_unchanged #[] 0 0 1 (fun _ _ => true) (by decide) (by decide),
   sorted_input_unchanged #[(7:Int)] 0 1 1 (fun _ _ => true) (by decide) (by decide),
   sorted_input_unchanged #[(1:Int), 2, 2, 5] 0 4 1 (fun _ _ => false) (by decide)
     (by decide)⟩

/-- C9: concrete scenario.  On the input `[5, 3, 8, 1, 9, 2]` both
`quicksort` and `parallelQuicksort` produce exactly `[1, 2, 3, 5, 8, 9]`
(the recursion happens to re-place every skipped split element correctly on
this input). -/
theorem concrete_scenario_sorted :
    quicksort #[(5:Int), 3, 8, 1, 9, 2] 0 6 = some #[(1:Int), 2, 3, 5, 8, 9] ∧
    parallelQuicksort defaultGranularity (fun _ _ => true)
      #[(5:Int), 3, 8, 1, 9, 2] 0 6 = some #[(1:Int), 2, 3, 5, 8, 9] := by
  refine ⟨by decide, by decide⟩

/-- C10: frame property.  On a subrange `[b, e)` of a larger array,
`partition` (with its pivot drawn from the range, as the sort engines
guarantee), `quicksort` and `parallelQuicksort` leave every position outside
`[b, e)` unchanged, and the two sibling recursive subranges `[b, m)` and
`[m+1, e)` around any split `m` are disjoint. -/
theorem sort_frame (a : Array Int) (b e g : Nat) (sched : Nat → Nat → Bool) (ref : Int)
    (hes : e ≤ a.size) :
    ((∃ q, b ≤ q ∧ q < e ∧ a[q]? = some ref) → b < e →
      ∀ a1 m, partition a b e ref = some (a1, m) →
        (∀ k, k < b ∨ e ≤ k → a1[k]? = a[k]?) ∧
        (∀ k, ¬ (b ≤ k ∧ k < m ∧ m + 1 ≤ k ∧ k < e))) ∧
    (∀ s, quicksort a b e = some s → ∀ k, k < b ∨ e ≤ k → s[k]? = a[k]?) ∧
    (∀ s, parallelQuicksort g sched a b e = some s →
      ∀ k, k < b ∨ e ≤ k → s[k]? = a[k]?) := by
  obtain ⟨s0, hrun, _, hframe, _, _⟩ := quicksort_spec a b e hes
  refine ⟨?_, ?_, ?_⟩
  · intro hpiv hbe a1 m hpart
    obtain ⟨a2, m2, hrun2, _, _, _, _, _, hframe2, _, _, _⟩ :=
      partition_spec a a b e ref hbe hes hpiv rfl (fun k hk1 hk2 => rfl)
    rw [hrun2] at hpart
    have hm : a2 = a1 := congrArg Prod.fst (Option.some.inj hpart)
    exact ⟨hm ▸ hframe2, fun k hk => by omega⟩
  · intro s hs k hk
    rw [hrun] at hs
    rw [← Option.some.inj hs]
    exact hframe k hk
  · intro s hs k hk
    rw [parallelQuicksort_eq g sched a b e hes, hrun] at hs
    rw [← Option.some.inj hs]
    exact hframe k hk

theorem sort_frame_witness :
    ((∃ q, 1 ≤ q ∧ q < 4 ∧ (#[(9:Int), 5, 1, 7, 42])[q]? = some 5) → 1 < 4 →
      ∀ a1 m, partition #[(9:Int), 5, 1, 7, 42] 1 4 5 = some (a1, m) →
        (∀ k, k < 1 ∨ 4 ≤ k → a1[k]? = (#[(9:Int), 5, 1, 7, 42])[k]?) ∧
        (∀ k, ¬ (1 ≤ k ∧ k < m ∧ m + 1 ≤ k ∧ k < 4))) ∧
    (∀ s, quicksort #[(9:Int), 5, 1, 7, 42] 1 4 = some s →
      ∀ k, k < 1 ∨ 4 ≤ k → s[k]? = (#[(9:Int), 5, 1, 7, 42])[k]?) ∧
    (∀ s, parallelQuicksort 1 (fun _ _ => true) #[(9:Int), 5, 1, 7, 42] 1 4 = some s →
      ∀ k, k < 1 ∨ 4 ≤ k → s[k]? = (#[(9:Int), 5, 1, 7, 42])[k]?) :=
  sort_frame #[(9:Int), 5, 1, 7, 42] 1 4 1 (fun _ _ => true) 5 (by decide)



end PSort
